import Mathlib

/-!
Verification of the pieshell interactive shell (src/lib.rs): the
transport-abstracted byte reader, the one-character UTF-8 decoder
`Reader::read_utf8_char`, the line collector `read_input`, the prompt
construction `get_prompt`, and the command parsing and binary resolution
`parse_input` / `find_binary`.

Modelling conventions.
* Bytes and Unicode scalar values are `Nat` (the Rust code uses `u8` and
  `char`; all byte operations stay below 256, enforced by hypotheses or by
  the definitions' own range tests).
* The transport (the `Reader` enum, STDIN or UART) is a list of read
  results: every `read` with a one-byte buffer either yields one byte of
  data or fails with an I/O error; the end of the list is end-of-stream
  (a read returning `Ok(0)`).  This matches the serial configuration
  (minimum read count one, no timeout) and the byte-at-a-time use of the
  buffered stdin reader.
* A Rust panic (an `unwrap()` of an `Err`, or of a `None`) is modelled as
  an explicit `panicked` outcome.
* The filesystem seen by `find_binary` is a structure of two functions:
  `is_file` on paths, and directory listing (`fs::read_dir`), which either
  yields the entries (with their file name, file-type and path) or fails.
* Echo output written back over the transport (the aarch64-only block of
  `read_input`) does not affect the collected line and is not modelled.
-/

/-- One result of a transport `read` call with a one-byte buffer: one byte
of data, or an I/O error.  End of stream is the end of the result list. -/
inductive RRes
  | data (b : Nat)
  | ioError
deriving DecidableEq

/-- The `io::ErrorKind` values produced by the embedded code paths. -/
inductive IOErrorKind
  | invalidData
  | invalidInput
  | notFound
  | other
deriving DecidableEq

/-- A pure byte stream: every read succeeds with a data byte. -/
def dataStream (bs : List Nat) : List RRes := bs.map RRes.data

/-- Lead-byte classification of `Reader::read_utf8_char` (lib.rs 97-113):
the total number of bytes of the UTF-8 character determined from the high
bits of the first byte, or `none` for an invalid lead byte (the
`InvalidData` early return). -/
def bytesInChar (first_byte : Nat) : Option Nat :=
  if first_byte &&& 0x80 = 0x00 then some 1
  else if first_byte &&& 0xE0 = 0xC0 then some 2
  else if first_byte &&& 0xF0 = 0xE0 then some 3
  else if first_byte &&& 0xF8 = 0xF0 then some 4
  else none

/-- UTF-8 continuation byte, `0x80..=0xBF`. -/
def isCont (b : Nat) : Bool := decide (0x80 ≤ b ∧ b ≤ 0xBF)

/-- Allowed second byte of a three-byte sequence (standard UTF-8 table, as
enforced by Rust's `String::from_utf8`): excludes overlongs (lead `0xE0`)
and surrogates (lead `0xED`). -/
def cont3ok (b0 b1 : Nat) : Bool :=
  if b0 = 0xE0 then decide (0xA0 ≤ b1 ∧ b1 ≤ 0xBF)
  else if b0 = 0xED then decide (0x80 ≤ b1 ∧ b1 ≤ 0x9F)
  else isCont b1

/-- Allowed second byte of a four-byte sequence: excludes overlongs (lead
`0xF0`) and values above U+10FFFF (lead `0xF4`). -/
def cont4ok (b0 b1 : Nat) : Bool :=
  if b0 = 0xF0 then decide (0x90 ≤ b1 ∧ b1 ≤ 0xBF)
  else if b0 = 0xF4 then decide (0x80 ≤ b1 ∧ b1 ≤ 0x8F)
  else isCont b1

/-- Standard UTF-8 decoding of the first character of a byte list: its
scalar value and its byte length.  The acceptance table is exactly the one
Rust's `String::from_utf8` enforces (no overlongs, no surrogates, maximum
U+10FFFF). -/
def utf8DecodeOne : List Nat → Option (Nat × Nat)
  | [] => none
  | b0 :: rest =>
    if b0 ≤ 0x7F then some (b0, 1)
    else if 0xC2 ≤ b0 ∧ b0 ≤ 0xDF then
      match rest with
      | b1 :: _ =>
        if isCont b1 then some ((b0 - 0xC0) * 0x40 + (b1 - 0x80), 2) else none
      | [] => none
    else if 0xE0 ≤ b0 ∧ b0 ≤ 0xEF then
      match rest with
      | b1 :: b2 :: _ =>
        if cont3ok b0 b1 && isCont b2 then
          some ((b0 - 0xE0) * 0x1000 + (b1 - 0x80) * 0x40 + (b2 - 0x80), 3)
        else none
      | _ => none
    else if 0xF0 ≤ b0 ∧ b0 ≤ 0xF4 then
      match rest with
      | b1 :: b2 :: b3 :: _ =>
        if cont4ok b0 b1 && isCont b2 && isCont b3 then
          some ((b0 - 0xF0) * 0x40000 + (b1 - 0x80) * 0x1000 + (b2 - 0x80) * 0x40 + (b3 - 0x80), 4)
        else none
      | _ => none
    else none

/-- Standard UTF-8 decoding of a whole byte list, fuel-bounded: decode one
character at a time with `utf8DecodeOne` and drop its bytes.  The fuel
bounds the number of characters; each character occupies at least one
byte, so the list length is always enough fuel. -/
def utf8CharsF : Nat → List Nat → Option (List Nat)
  | _, [] => some []
  | 0, _ :: _ => none
  | fuel + 1, b0 :: rest =>
    match utf8DecodeOne (b0 :: rest) with
    | none => none
    | some (v, len) => (utf8CharsF fuel ((b0 :: rest).drop len)).map (fun cs => v :: cs)

/-- Standard UTF-8 decoding of a whole byte list into its sequence of
scalar values, or `none` if the list is not valid UTF-8.  This is the
reference decoder the spec compares against, and also the model of the
validation performed by Rust's `String::from_utf8`. -/
def utf8Chars (bs : List Nat) : Option (List Nat) := utf8CharsF bs.length bs

/-- Outcome of one `read_utf8_char` call.  `ok none` is clean end of
stream, `ok (some v)` a decoded scalar value, `err k` an error return with
`io::ErrorKind` `k`, and `panicked` a Rust panic (an `unwrap` of a
transport error at lib.rs 90/118, or of `chars().next()` at line 133). -/
inductive Utf8Out
  | ok (c : Option Nat)
  | err (k : IOErrorKind)
  | panicked
deriving DecidableEq

/-- The bytes read so far, zero-padded to the fixed four-byte `char_buf`
array of lib.rs line 87. -/
def padChar (bs : List Nat) : List Nat := bs ++ List.replicate (4 - bs.length) 0

/-- The continuation-byte loop of `read_utf8_char` (lib.rs 117-129): read
`k` further bytes one at a time.  A stream that ends early is the
truncated-character `InvalidData` error return; a transport error is
unwrapped, i.e. a panic.  Also returns the rest of the stream. -/
def readCont : Nat → List RRes → (Utf8Out ⊕ List Nat) × List RRes
  | 0, s => (Sum.inr [], s)
  | _ + 1, [] => (Sum.inl (Utf8Out.err IOErrorKind.invalidData), [])
  | _ + 1, RRes.ioError :: rest => (Sum.inl Utf8Out.panicked, rest)
  | k + 1, RRes.data b :: rest =>
    match readCont k rest with
    | (Sum.inl out, rest') => (Sum.inl out, rest')
    | (Sum.inr bs, rest') => (Sum.inr (b :: bs), rest')

/-- `Reader::read_utf8_char` (lib.rs 85-137): read the first byte (end of
stream gives `Ok(None)`, a transport error is unwrapped into a panic),
classify it, read the continuation bytes, then decode the zero-padded
four-byte buffer with `String::from_utf8` (failure gives an error of kind
`Other`, lib.rs 134) and take its first character. -/
def read_utf8_char (s : List RRes) : Utf8Out × List RRes :=
  match s with
  | [] => (Utf8Out.ok none, [])
  | RRes.ioError :: rest => (Utf8Out.panicked, rest)
  | RRes.data first_byte :: rest =>
    match bytesInChar first_byte with
    | none => (Utf8Out.err IOErrorKind.invalidData, rest)
    | some n =>
      match readCont (n - 1) rest with
      | (Sum.inl out, rest') => (out, rest')
      | (Sum.inr tail, rest') =>
        match utf8Chars (padChar (first_byte :: tail)) with
        | none => (Utf8Out.err IOErrorKind.other, rest')
        | some [] => (Utf8Out.panicked, rest')
        | some (v :: _) => (Utf8Out.ok (some v), rest')

/-- Successive calls to `read_utf8_char` on a stream, collecting the
decoded scalar values until clean end of stream; `none` on any error,
panic, or fuel exhaustion.  Observer used to compare the reader against
the standard decoder. -/
def readAll : Nat → List RRes → Option (List Nat)
  | 0, s =>
    match read_utf8_char s with
    | (Utf8Out.ok none, _) => some []
    | _ => none
  | fuel + 1, s =>
    match read_utf8_char s with
    | (Utf8Out.ok none, _) => some []
    | (Utf8Out.ok (some v), rest) => (readAll fuel rest).map (fun cs => v :: cs)
    | _ => none

/-- Outcome of `read_input` (lib.rs 259-315).  `line` is the `Ok` return
carrying the collected text; `ioFail` the propagated decode error;
`exitEndOfStream` the `process::exit(1)` taken on `Ok(None)` from the
reader; `panicked` a panic propagated from `read_utf8_char`.  `outOfFuel`
is an artifact of the fuel-bounded model and is unreachable from
`read_input` (which supplies the stream length as fuel). -/
inductive InputResult
  | line (text : List Nat) (rest : List RRes)
  | ioFail (k : IOErrorKind)
  | exitEndOfStream
  | panicked
  | outOfFuel
deriving DecidableEq

/-- The collection loop of `read_input` (lib.rs 263-312): decode one
character at a time and apply the control-character semantics — newline or
carriage return completes the line, 0x03 (Ctrl-C) clears it and completes,
0x04 (Ctrl-D) returns a line holding just that character, 0x7F (backspace)
pops the last collected character, anything else is appended. -/
def read_input_go (fuel : Nat) (input : List Nat) (s : List RRes) : InputResult :=
  match read_utf8_char s with
  | (Utf8Out.ok none, _) => InputResult.exitEndOfStream
  | (Utf8Out.err k, _) => InputResult.ioFail k
  | (Utf8Out.panicked, _) => InputResult.panicked
  | (Utf8Out.ok (some c), rest) =>
    if c = 10 ∨ c = 13 then InputResult.line input rest
    else if c = 3 then InputResult.line [] rest
    else if c = 4 then InputResult.line [4] rest
    else
      match fuel with
      | 0 => InputResult.outOfFuel
      | fuel' + 1 =>
        if c = 127 then read_input_go fuel' input.dropLast rest
        else read_input_go fuel' (input ++ [c]) rest

/-- `read_input` (lib.rs 259-315), starting from an empty line.  Each loop
iteration consumes at least one stream element, so the stream length
bounds the number of iterations. -/
def read_input (s : List RRes) : InputResult := read_input_go s.length [] s

/-- What the dispatcher `run` (lib.rs 157-174) does with the result of
`read_input` before parsing: a collected line proceeds to parsing, an
error is reported and the process exits with status 1 (lib.rs 168-173),
end of stream has already exited inside `read_input` (lib.rs 266-269),
and a panic aborts the process. -/
inductive DispatchOutcome
  | proceedToParse (line : List Nat) (rest : List RRes)
  | exitProcess
  | panicked
deriving DecidableEq

/-- The input-handling step of the prompt loop in `run` (lib.rs 166-174)
applied to an input stream. -/
def dispatch_input (s : List RRes) : DispatchOutcome :=
  match read_input s with
  | InputResult.line l rest => DispatchOutcome.proceedToParse l rest
  | InputResult.ioFail _ => DispatchOutcome.exitProcess
  | InputResult.exitEndOfStream => DispatchOutcome.exitProcess
  | InputResult.panicked => DispatchOutcome.panicked
  | InputResult.outOfFuel => DispatchOutcome.panicked

/-- Rust `str::split` with a single-character separator (lib.rs 318 uses
`" "`, `find_binary` line 365 uses `":"`): splits at every occurrence,
keeping empty pieces, so the result is always non-empty. -/
def rustSplit (sep : Nat) : List Nat → List (List Nat)
  | [] => [[]]
  | b :: rest =>
    match rustSplit sep rest with
    | [] => [[]]
    | t :: ts => if b = sep then [] :: t :: ts else (b :: t) :: ts

/-- Rust `char::is_whitespace`: the Unicode White_Space property, as used
by `str::trim`. -/
def isRustWhitespace (b : Nat) : Bool :=
  decide (b = 0x09 ∨ b = 0x0A ∨ b = 0x0B ∨ b = 0x0C ∨ b = 0x0D ∨ b = 0x20 ∨
    b = 0x85 ∨ b = 0xA0 ∨ b = 0x1680 ∨ (0x2000 ≤ b ∧ b ≤ 0x200A) ∨
    b = 0x2028 ∨ b = 0x2029 ∨ b = 0x202F ∨ b = 0x205F ∨ b = 0x3000)

/-- Leading-whitespace removal, first half of Rust `str::trim`. -/
def trimStart (l : List Nat) : List Nat := l.dropWhile isRustWhitespace

/-- Trailing-whitespace removal, second half of Rust `str::trim`. -/
def trimEnd (l : List Nat) : List Nat := (l.reverse.dropWhile isRustWhitespace).reverse

/-- Rust `str::trim` (lib.rs 318): remove leading and trailing whitespace
characters. -/
def rustTrim (l : List Nat) : List Nat := trimEnd (trimStart l)

/-- One entry produced by listing a directory: its file name, whether its
file type is a regular file, and its full path. -/
structure DirEntry where
  name : List Nat
  is_file : Bool
  entryPath : List Nat
deriving DecidableEq

/-- The filesystem as seen by `find_binary`: `Path::is_file` on a path
string, and `fs::read_dir`, which yields the directory's entries or fails
(`none`) for a missing or inaccessible directory. -/
structure FileSys where
  isFile : List Nat → Bool
  readDir : List Nat → Option (List DirEntry)

/-- The entry test of `find_binary` (lib.rs 384): a regular file whose
file name equals the requested program name. -/
def entryMatches (program : List Nat) (e : DirEntry) : Bool :=
  e.is_file && decide (e.name = program)

/-- The directory-search loop of `find_binary` (lib.rs 365-388): walk the
directories in order, skip any directory whose listing fails, and return
the path of the first matching entry. -/
def searchDirs (fs : FileSys) (program : List Nat) : List (List Nat) → Option (List Nat)
  | [] => none
  | dir :: dirs =>
    match fs.readDir dir with
    | none => searchDirs fs program dirs
    | some entries =>
      match entries.find? (entryMatches program) with
      | some entry => some entry.entryPath
      | none => searchDirs fs program dirs

/-- Number of components Rust's `Path` keeps for a relative path when
splitting on `/`: empty segments are dropped, and a `.` segment is dropped
except in the leading position (where it is the `CurDir` component). -/
def pathComponentCount (p : List Nat) : Nat :=
  match rustSplit 47 p with
  | [] => 0
  | s0 :: rest =>
    (if s0 = [] then 0 else 1) +
      (rest.filter (fun s => decide (s ≠ [] ∧ s ≠ [46]))).length

/-- Models the branch test of `find_binary` (lib.rs 350):
`path.parent() == Some(Path::new(""))`.  Rust's `Path::parent` is the path
without its final component; it equals the empty path exactly when the
path is relative (does not start with `/`) and consists of a single
component.  In particular a bare name like `ls`, but also `ls/`, `.` or
`a/.`, satisfy this; any absolute path, or a relative path of two or more
components, does not. -/
def rustParentIsEmptyPath (p : List Nat) : Bool :=
  decide (p.head? ≠ some 47) && decide (pathComponentCount p = 1)

/-- Return value of `find_binary` (lib.rs 346-392):
`io::Result<Option<PathBuf>>` with `okSome` a found path, `okNone` a
completed search without a match, and `errK` an error of the given kind
naming the given path (`InvalidInput` with the program, lib.rs 354, or
`Other` for a missing PATH variable, lib.rs 361). -/
inductive FindResult
  | okSome (p : List Nat)
  | okNone
  | errK (k : IOErrorKind) (detail : List Nat)
deriving DecidableEq

/-- `find_binary` (lib.rs 346-392): a program whose path parent is
non-empty is an explicit path that must be a regular file; otherwise each
directory of the colon-separated PATH variable is searched in order. -/
def find_binary (fs : FileSys) (pathVar : Option (List Nat)) (program : List Nat) :
    FindResult :=
  if rustParentIsEmptyPath program = false then
    if fs.isFile program = true then FindResult.okSome program
    else FindResult.errK IOErrorKind.invalidInput program
  else
    match pathVar with
    | none => FindResult.errK IOErrorKind.other []
    | some pv =>
      match searchDirs fs program (rustSplit 58 pv) with
      | some full_path => FindResult.okSome full_path
      | none => FindResult.okNone

/-- Result of `parse_input` (lib.rs 317-344): `noCommand` is `Ok(None)`
(blank first token, re-prompt), `command` is `Ok(Some(Command))` with the
resolved program and the remaining tokens as arguments, `err` an
`io::Error` of the given kind with the given detail string, and
`exitProc` the `process::exit(1)` taken when the first token starts with
the end-of-transmission character. -/
inductive ParseResult
  | noCommand
  | command (prog : List Nat) (args : List (List Nat))
  | err (k : IOErrorKind) (detail : List Nat)
  | exitProc
deriving DecidableEq

/-- `parse_input` (lib.rs 317-344): trim the line, split on single spaces,
handle the empty and Ctrl-D first token, then resolve the first token via
`find_binary`; a completed search without a match becomes a `NotFound`
error naming the token (lib.rs 341). -/
def parse_input (fs : FileSys) (pathVar : Option (List Nat)) (input : List Nat) :
    ParseResult :=
  match rustSplit 32 (rustTrim input) with
  | [] => ParseResult.noCommand
  | tok :: rest =>
    if tok = [] then ParseResult.noCommand
    else if tok.head? = some 4 then ParseResult.exitProc
    else
      match find_binary fs pathVar tok with
      | FindResult.okSome full_path => ParseResult.command full_path rest
      | FindResult.okNone => ParseResult.err IOErrorKind.notFound tok
      | FindResult.errK k detail => ParseResult.err k detail

/-- The replacement loop of Rust `str::replace` for a non-empty pattern:
scan left to right, replacing each non-overlapping occurrence of the
pattern.  The fuel bounds the number of steps; each step consumes at least
one character when the pattern is non-empty. -/
def replaceCore : Nat → List Char → List Char → List Char → List Char
  | 0, s, _, _ => s
  | fuel + 1, s, pat, rep =>
    match s with
    | [] => []
    | c :: rest =>
      if pat.isPrefixOf s then rep ++ replaceCore fuel (s.drop pat.length) pat rep
      else c :: replaceCore fuel rest pat rep

/-- Rust `str::replace` (lib.rs 254): replace every non-overlapping
occurrence of `pat` in `s` by `rep`, left to right.  An empty pattern
matches at every character boundary, including both ends. -/
def rustReplace (s pat rep : List Char) : List Char :=
  if pat = [] then rep ++ s.foldr (fun c acc => c :: (rep ++ acc)) []
  else replaceCore s.length s pat rep

/-- `get_prompt` (lib.rs 249-257): `user@host:cwd$ ` with the home string
replaced by `~` in the current-directory string via `str::replace`. -/
def get_prompt (user host_name home current_dir : List Char) : List Char :=
  user ++ '@' :: (host_name ++ ':' :: (rustReplace current_dir home ['~'] ++ '$' :: ' ' :: []))

/-- Fixture: a filesystem with no regular files and only empty listable
directories. -/
def fsEmpty : FileSys := ⟨fun _ => false, fun _ => some []⟩

/-- Fixture: a filesystem where directory `/a` cannot be listed and
directory `/b` holds the single regular file `ls`. -/
def fsTwoDirs : FileSys :=
  ⟨fun _ => false,
   fun d =>
     if d = [47, 97] then none
     else if d = [47, 98] then some [⟨[108, 115], true, [47, 98, 47, 108, 115]⟩]
     else none⟩

/-- Fixture: a filesystem where `/bin/sh` is a regular file. -/
def fsBinSh : FileSys :=
  ⟨fun p => p = [47, 98, 105, 110, 47, 115, 104], fun _ => none⟩

/-! ### Lead-byte classification facts -/

theorem bytesInChar_ascii (b : Nat) (h : b ≤ 0x7F) : bytesInChar b = some 1 := by
  have key : ∀ x : Fin 0x80, bytesInChar x.val = some 1 := by decide
  exact key ⟨b, by omega⟩

set_option maxRecDepth 4000 in
theorem bytesInChar_two (b : Nat) (h1 : 0xC0 ≤ b) (h2 : b ≤ 0xDF) :
    bytesInChar b = some 2 := by
  have key : ∀ x : Fin 0x20, bytesInChar (0xC0 + x.val) = some 2 := by decide
  have h := key ⟨b - 0xC0, by omega⟩
  have e : 0xC0 + (b - 0xC0) = b := by omega
  rwa [e] at h

set_option maxRecDepth 4000 in
theorem bytesInChar_three (b : Nat) (h1 : 0xE0 ≤ b) (h2 : b ≤ 0xEF) :
    bytesInChar b = some 3 := by
  have key : ∀ x : Fin 0x10, bytesInChar (0xE0 + x.val) = some 3 := by decide
  have h := key ⟨b - 0xE0, by omega⟩
  have e : 0xE0 + (b - 0xE0) = b := by omega
  rwa [e] at h

set_option maxRecDepth 4000 in
theorem bytesInChar_four (b : Nat) (h1 : 0xF0 ≤ b) (h2 : b ≤ 0xF7) :
    bytesInChar b = some 4 := by
  have key : ∀ x : Fin 0x8, bytesInChar (0xF0 + x.val) = some 4 := by decide
  have h := key ⟨b - 0xF0, by omega⟩
  have e : 0xF0 + (b - 0xF0) = b := by omega
  rwa [e] at h

/-! ### Evaluation of the continuation-byte loop on pure data -/

theorem readCont_zero (s : List RRes) : readCont 0 s = (Sum.inr [], s) := rfl

theorem readCont_one (b1 : Nat) (t : List RRes) :
    readCont 1 (RRes.data b1 :: t) = (Sum.inr [b1], t) := rfl

theorem readCont_two (b1 b2 : Nat) (t : List RRes) :
    readCont 2 (RRes.data b1 :: RRes.data b2 :: t) = (Sum.inr [b1, b2], t) := rfl

theorem readCont_three (b1 b2 b3 : Nat) (t : List RRes) :
    readCont 3 (RRes.data b1 :: RRes.data b2 :: RRes.data b3 :: t) =
      (Sum.inr [b1, b2, b3], t) := rfl

/-! ### Shape of a successful standard one-character decode -/

theorem utf8DecodeOne_shape (bs : List Nat) (v len : Nat)
    (h : utf8DecodeOne bs = some (v, len)) :
    (∃ b0 rest, bs = b0 :: rest ∧ b0 ≤ 0x7F ∧ v = b0 ∧ len = 1)
  ∨ (∃ b0 b1 rest, bs = b0 :: b1 :: rest ∧ 0xC2 ≤ b0 ∧ b0 ≤ 0xDF ∧ isCont b1 = true ∧
      v = (b0 - 0xC0) * 0x40 + (b1 - 0x80) ∧ len = 2)
  ∨ (∃ b0 b1 b2 rest, bs = b0 :: b1 :: b2 :: rest ∧ 0xE0 ≤ b0 ∧ b0 ≤ 0xEF ∧
      cont3ok b0 b1 = true ∧ isCont b2 = true ∧
      v = (b0 - 0xE0) * 0x1000 + (b1 - 0x80) * 0x40 + (b2 - 0x80) ∧ len = 3)
  ∨ (∃ b0 b1 b2 b3 rest, bs = b0 :: b1 :: b2 :: b3 :: rest ∧ 0xF0 ≤ b0 ∧ b0 ≤ 0xF4 ∧
      cont4ok b0 b1 = true ∧ isCont b2 = true ∧ isCont b3 = true ∧
      v = (b0 - 0xF0) * 0x40000 + (b1 - 0x80) * 0x1000 + (b2 - 0x80) * 0x40 + (b3 - 0x80) ∧
      len = 4) := by
  match bs with
  | [] => simp [utf8DecodeOne] at h
  | b0 :: rest =>
    by_cases c1 : b0 ≤ 0x7F
    · left
      simp only [utf8DecodeOne, if_pos c1, Option.some.injEq, Prod.mk.injEq] at h
      exact ⟨b0, rest, rfl, c1, h.1.symm, h.2.symm⟩
    · by_cases c2 : 0xC2 ≤ b0 ∧ b0 ≤ 0xDF
      · right; left
        cases rest with
        | nil => simp [utf8DecodeOne, c1, c2] at h
        | cons b1 rest2 =>
          by_cases hc : isCont b1 = true
          · simp only [utf8DecodeOne, if_neg c1, if_pos c2, hc, if_true,
              Option.some.injEq, Prod.mk.injEq] at h
            exact ⟨b0, b1, rest2, rfl, c2.1, c2.2, hc, h.1.symm, h.2.symm⟩
          · simp [utf8DecodeOne, c1, c2, hc] at h
      · by_cases c3 : 0xE0 ≤ b0 ∧ b0 ≤ 0xEF
        · right; right; left
          match rest with
          | [] => simp [utf8DecodeOne, c1, c2, c3] at h
          | [b1] => simp [utf8DecodeOne, c1, c2, c3] at h
          | b1 :: b2 :: rest3 =>
            by_cases hc1 : cont3ok b0 b1 = true
            · by_cases hc2 : isCont b2 = true
              · simp only [utf8DecodeOne, if_neg c1, if_neg c2, if_pos c3, hc1, hc2,
                  Bool.and_self, if_true, Option.some.injEq, Prod.mk.injEq] at h
                exact ⟨b0, b1, b2, rest3, rfl, c3.1, c3.2, hc1, hc2, h.1.symm, h.2.symm⟩
              · simp [utf8DecodeOne, c1, c2, c3, hc1, hc2] at h
            · simp [utf8DecodeOne, c1, c2, c3, hc1] at h
        · by_cases c4 : 0xF0 ≤ b0 ∧ b0 ≤ 0xF4
          · right; right; right
            match rest with
            | [] => simp [utf8DecodeOne, c1, c2, c3, c4] at h
            | [b1] => simp [utf8DecodeOne, c1, c2, c3, c4] at h
            | [b1, b2] => simp [utf8DecodeOne, c1, c2, c3, c4] at h
            | b1 :: b2 :: b3 :: rest4 =>
              by_cases hc1 : cont4ok b0 b1 = true
              · by_cases hc2 : isCont b2 = true
                · by_cases hc3 : isCont b3 = true
                  · simp only [utf8DecodeOne, if_neg c1, if_neg c2, if_neg c3, if_pos c4,
                      hc1, hc2, hc3, Bool.and_self, if_true,
                      Option.some.injEq, Prod.mk.injEq] at h
                    exact ⟨b0, b1, b2, b3, rest4, rfl, c4.1, c4.2, hc1, hc2, hc3,
                      h.1.symm, h.2.symm⟩
                  · simp [utf8DecodeOne, c1, c2, c3, c4, hc1, hc2, hc3] at h
                · simp [utf8DecodeOne, c1, c2, c3, c4, hc1, hc2] at h
              · simp [utf8DecodeOne, c1, c2, c3, c4, hc1] at h
          · simp [utf8DecodeOne, c1, c2, c3, c4] at h

theorem utf8DecodeOne_len (bs : List Nat) (v len : Nat)
    (h : utf8DecodeOne bs = some (v, len)) : 1 ≤ len ∧ len ≤ 4 ∧ len ≤ bs.length := by
  rcases utf8DecodeOne_shape bs v len h with
    ⟨b0, rest, rfl, _, _, rfl⟩ |
    ⟨b0, b1, rest, rfl, _, _, _, _, rfl⟩ |
    ⟨b0, b1, b2, rest, rfl, _, _, _, _, _, rfl⟩ |
    ⟨b0, b1, b2, b3, rest, rfl, _, _, _, _, _, _, rfl⟩ <;> simp

/-! ### The whole-list decoder, fuel facts and one-step unfolding -/

theorem utf8CharsF_nil (fuel : Nat) : utf8CharsF fuel [] = some [] := by
  cases fuel <;> rfl

theorem utf8CharsF_irrel (f1 : Nat) : ∀ (f2 : Nat) (bs : List Nat), bs.length ≤ f1 →
    bs.length ≤ f2 → utf8CharsF f1 bs = utf8CharsF f2 bs := by
  induction f1 with
  | zero =>
    intro f2 bs h1 h2
    match bs with
    | [] => rw [utf8CharsF_nil, utf8CharsF_nil]
    | b :: rest => simp at h1
  | succ n ih =>
    intro f2 bs h1 h2
    match bs with
    | [] => rw [utf8CharsF_nil, utf8CharsF_nil]
    | b0 :: rest =>
      match f2, h2 with
      | 0, h2 => exact absurd h2 (by simp)
      | m + 1, h2 =>
        simp only [utf8CharsF]
        cases hdec : utf8DecodeOne (b0 :: rest) with
        | none => rfl
        | some p =>
          obtain ⟨v, len⟩ := p
          obtain ⟨hl1, _, hl3⟩ := utf8DecodeOne_len _ _ _ hdec
          simp only [List.length_cons] at hl3
          have hd1 : ((b0 :: rest).drop len).length ≤ n := by
            simp only [List.length_drop, List.length_cons]
            simp only [List.length_cons] at h1
            omega
          have hd2 : ((b0 :: rest).drop len).length ≤ m := by
            simp only [List.length_drop, List.length_cons]
            simp only [List.length_cons] at h2
            omega
          have e := ih m ((b0 :: rest).drop len) hd1 hd2
          simp [e]

theorem utf8CharsF_fuel (fuel : Nat) (bs : List Nat) (h : bs.length ≤ fuel) :
    utf8CharsF fuel bs = utf8Chars bs :=
  utf8CharsF_irrel fuel bs.length bs h le_rfl

theorem utf8Chars_eq (b0 : Nat) (rest : List Nat) :
    utf8Chars (b0 :: rest) =
      match utf8DecodeOne (b0 :: rest) with
      | none => none
      | some (v, len) => (utf8Chars ((b0 :: rest).drop len)).map (fun cs => v :: cs) := by
  rw [utf8Chars]
  simp only [List.length_cons, utf8CharsF]
  cases hdec : utf8DecodeOne (b0 :: rest) with
  | none => rfl
  | some p =>
    obtain ⟨v, len⟩ := p
    obtain ⟨hl1, _, hl3⟩ := utf8DecodeOne_len _ _ _ hdec
    simp only [List.length_cons] at hl3
    have hd : ((b0 :: rest).drop len).length ≤ rest.length := by
      simp only [List.length_drop, List.length_cons]
      omega
    simp [utf8CharsF_fuel _ _ hd]

/-! ### One `read_utf8_char` call on each class of valid character -/

theorem read_char_one (b0 : Nat) (t : List RRes) (h : b0 ≤ 0x7F) :
    read_utf8_char (RRes.data b0 :: t) = (Utf8Out.ok (some b0), t) := by
  have hb : bytesInChar b0 = some 1 := bytesInChar_ascii b0 h
  have hpad : padChar [b0] = [b0, 0, 0, 0] := rfl
  have hdec : utf8DecodeOne [b0, 0, 0, 0] = some (b0, 1) := by
    simp [utf8DecodeOne, h]
  have hz : utf8Chars [0, 0, 0] = some [0, 0, 0] := by decide
  have hch : utf8Chars [b0, 0, 0, 0] = some (b0 :: [0, 0, 0]) := by
    rw [utf8Chars_eq, hdec]
    simp [hz]
  simp [read_utf8_char, hb, readCont_zero, hpad, hch]

theorem read_char_two (b0 b1 : Nat) (t : List RRes)
    (h0 : 0xC2 ≤ b0) (h0' : b0 ≤ 0xDF) (h1 : isCont b1 = true) :
    read_utf8_char (RRes.data b0 :: RRes.data b1 :: t) =
      (Utf8Out.ok (some ((b0 - 0xC0) * 0x40 + (b1 - 0x80))), t) := by
  have hb : bytesInChar b0 = some 2 := bytesInChar_two b0 (by omega) h0'
  have hn1 : ¬ (b0 ≤ 0x7F) := by omega
  have hpad : padChar [b0, b1] = [b0, b1, 0, 0] := rfl
  have hdec : utf8DecodeOne [b0, b1, 0, 0] =
      some ((b0 - 0xC0) * 0x40 + (b1 - 0x80), 2) := by
    simp [utf8DecodeOne, hn1, h0, h0', h1]
  have hz : utf8Chars [0, 0] = some [0, 0] := by decide
  have hch : utf8Chars [b0, b1, 0, 0] =
      some (((b0 - 0xC0) * 0x40 + (b1 - 0x80)) :: [0, 0]) := by
    rw [utf8Chars_eq, hdec]
    simp [hz]
  simp [read_utf8_char, hb, readCont_one, hpad, hch]

theorem read_char_three (b0 b1 b2 : Nat) (t : List RRes)
    (h0 : 0xE0 ≤ b0) (h0' : b0 ≤ 0xEF) (h1 : cont3ok b0 b1 = true) (h2 : isCont b2 = true) :
    read_utf8_char (RRes.data b0 :: RRes.data b1 :: RRes.data b2 :: t) =
      (Utf8Out.ok (some ((b0 - 0xE0) * 0x1000 + (b1 - 0x80) * 0x40 + (b2 - 0x80))), t) := by
  have hb : bytesInChar b0 = some 3 := bytesInChar_three b0 h0 h0'
  have hn1 : ¬ (b0 ≤ 0x7F) := by omega
  have hn2 : ¬ (0xC2 ≤ b0 ∧ b0 ≤ 0xDF) := by omega
  have hpad : padChar [b0, b1, b2] = [b0, b1, b2, 0] := rfl
  have hdec : utf8DecodeOne [b0, b1, b2, 0] =
      some ((b0 - 0xE0) * 0x1000 + (b1 - 0x80) * 0x40 + (b2 - 0x80), 3) := by
    simp [utf8DecodeOne, hn1, hn2, h0, h0', h1, h2]
  have hz : utf8Chars [0] = some [0] := by decide
  have hch : utf8Chars [b0, b1, b2, 0] =
      some (((b0 - 0xE0) * 0x1000 + (b1 - 0x80) * 0x40 + (b2 - 0x80)) :: [0]) := by
    rw [utf8Chars_eq, hdec]
    simp [hz]
  simp [read_utf8_char, hb, readCont_two, hpad, hch]

theorem read_char_four (b0 b1 b2 b3 : Nat) (t : List RRes)
    (h0 : 0xF0 ≤ b0) (h0' : b0 ≤ 0xF4) (h1 : cont4ok b0 b1 = true)
    (h2 : isCont b2 = true) (h3 : isCont b3 = true) :
    read_utf8_char (RRes.data b0 :: RRes.data b1 :: RRes.data b2 :: RRes.data b3 :: t) =
      (Utf8Out.ok (some ((b0 - 0xF0) * 0x40000 + (b1 - 0x80) * 0x1000 +
        (b2 - 0x80) * 0x40 + (b3 - 0x80))), t) := by
  have hb : bytesInChar b0 = some 4 := bytesInChar_four b0 h0 (by omega)
  have hn1 : ¬ (b0 ≤ 0x7F) := by omega
  have hn2 : ¬ (0xC2 ≤ b0 ∧ b0 ≤ 0xDF) := by omega
  have hn3 : ¬ (0xE0 ≤ b0 ∧ b0 ≤ 0xEF) := by omega
  have hpad : padChar [b0, b1, b2, b3] = [b0, b1, b2, b3] := rfl
  have hdec : utf8DecodeOne [b0, b1, b2, b3] =
      some ((b0 - 0xF0) * 0x40000 + (b1 - 0x80) * 0x1000 +
        (b2 - 0x80) * 0x40 + (b3 - 0x80), 4) := by
    simp [utf8DecodeOne, hn1, hn2, hn3, h0, h0', h1, h2, h3]
  have hch : utf8Chars [b0, b1, b2, b3] =
      some (((b0 - 0xF0) * 0x40000 + (b1 - 0x80) * 0x1000 +
        (b2 - 0x80) * 0x40 + (b3 - 0x80)) :: []) := by
    rw [utf8Chars_eq, hdec]
    simp [utf8Chars, utf8CharsF_nil]
  simp [read_utf8_char, hb, readCont_three, hpad, hch]

/-! ### One call on a stream whose head is a valid character -/

set_option maxRecDepth 4000 in
theorem read_valid_char (bs : List Nat) (v len : Nat) (s' : List RRes)
    (h : utf8DecodeOne bs = some (v, len)) :
    read_utf8_char (dataStream bs ++ s') =
      (Utf8Out.ok (some v), dataStream (bs.drop len) ++ s') := by
  rcases utf8DecodeOne_shape bs v len h with
    ⟨b0, rest, rfl, hc, rfl, rfl⟩ |
    ⟨b0, b1, rest, rfl, h0, h0', h1, rfl, rfl⟩ |
    ⟨b0, b1, b2, rest, rfl, h0, h0', h1, h2, rfl, rfl⟩ |
    ⟨b0, b1, b2, b3, rest, rfl, h0, h0', h1, h2, h3, rfl, rfl⟩
  · simpa [dataStream] using read_char_one v (dataStream rest ++ s') hc
  · simpa [dataStream] using read_char_two b0 b1 (dataStream rest ++ s') h0 h0' h1
  · simpa [dataStream] using read_char_three b0 b1 b2 (dataStream rest ++ s') h0 h0' h1 h2
  · simpa [dataStream] using read_char_four b0 b1 b2 b3 (dataStream rest ++ s') h0 h0' h1 h2 h3

/-! ### Decomposing a successful whole-list decode -/

theorem utf8Chars_decomp (b0 : Nat) (rest : List Nat) (cs : List Nat)
    (h : utf8Chars (b0 :: rest) = some cs) :
    ∃ v len cs', utf8DecodeOne (b0 :: rest) = some (v, len) ∧ 1 ≤ len ∧
      len ≤ (b0 :: rest).length ∧ utf8Chars ((b0 :: rest).drop len) = some cs' ∧
      cs = v :: cs' := by
  rw [utf8Chars_eq] at h
  cases hdec : utf8DecodeOne (b0 :: rest) with
  | none => rw [hdec] at h; simp at h
  | some p =>
    obtain ⟨v, len⟩ := p
    rw [hdec] at h
    simp only [Option.map_eq_some'] at h
    obtain ⟨cs', hcs', hmap⟩ := h
    obtain ⟨hl1, _, hl3⟩ := utf8DecodeOne_len _ _ _ hdec
    exact ⟨v, len, cs', rfl, hl1, hl3, hcs', hmap.symm⟩

/-- Successive reader calls reproduce the standard decoding of a valid
stream. -/
theorem readAll_valid (fuel : Nat) : ∀ (bs cs : List Nat), bs.length ≤ fuel →
    utf8Chars bs = some cs → readAll fuel (dataStream bs) = some cs := by
  induction fuel with
  | zero =>
    intro bs cs hlen hchars
    match bs with
    | [] =>
      have : cs = [] := by
        have h0 : utf8Chars [] = some [] := rfl
        rw [h0] at hchars
        exact (Option.some.injEq _ _ ▸ hchars).symm
      subst this
      rfl
    | b :: rest => simp at hlen
  | succ n ih =>
    intro bs cs hlen hchars
    match bs with
    | [] =>
      have : cs = [] := by
        have h0 : utf8Chars [] = some [] := rfl
        rw [h0] at hchars
        exact (Option.some.injEq _ _ ▸ hchars).symm
      subst this
      rfl
    | b0 :: rest =>
      obtain ⟨v, len, cs', hdec, hl1, hl3, hrest, rfl⟩ := utf8Chars_decomp b0 rest cs hchars
      have hread := read_valid_char (b0 :: rest) v len [] hdec
      rw [List.append_nil, List.append_nil] at hread
      have hlen' : ((b0 :: rest).drop len).length ≤ n := by
        simp only [List.length_drop, List.length_cons]
        simp only [List.length_cons] at hlen
        omega
      simp only [readAll, hread]
      rw [ih _ cs' hlen' hrest]
      rfl

/-- Claim C1: on a stream whose next bytes are a valid UTF-8 character,
one `read_utf8_char` call returns exactly the scalar value a standard
UTF-8 decoder produces and consumes exactly that character's byte count
(between 1 and 4), leaving the rest of the stream untouched; and on a
fully valid stream, successive calls return exactly the standard decoder's
scalar-value sequence. -/
theorem c1_reader_matches_standard_decoder (bs : List Nat) (v len : Nat) (cs : List Nat)
    (s' : List RRes) (h1 : utf8DecodeOne bs = some (v, len)) (h2 : utf8Chars bs = some cs) :
    (1 ≤ len ∧ len ≤ 4)
    ∧ read_utf8_char (dataStream bs ++ s') =
        (Utf8Out.ok (some v), dataStream (bs.drop len) ++ s')
    ∧ readAll bs.length (dataStream bs) = some cs := by
  obtain ⟨hla, hlb, _⟩ := utf8DecodeOne_len bs v len h1
  exact ⟨⟨hla, hlb⟩, read_valid_char bs v len s' h1, readAll_valid bs.length bs cs le_rfl h2⟩

/-- Witness for C1 at the two-character stream `"aé"` = `[0x61, 0xC3, 0xA9]`. -/
theorem c1_witness :
    utf8DecodeOne [0x61, 0xC3, 0xA9] = some (0x61, 1)
  ∧ utf8Chars [0x61, 0xC3, 0xA9] = some [0x61, 0xE9]
  ∧ ((1 ≤ 1 ∧ 1 ≤ 4)
     ∧ read_utf8_char (dataStream [0x61, 0xC3, 0xA9] ++ []) =
         (Utf8Out.ok (some 0x61), dataStream ([0x61, 0xC3, 0xA9].drop 1) ++ [])
     ∧ readAll [0x61, 0xC3, 0xA9].length (dataStream [0x61, 0xC3, 0xA9]) =
         some [0x61, 0xE9]) :=
  ⟨by decide, by decide,
    c1_reader_matches_standard_decoder [0x61, 0xC3, 0xA9] 0x61 1 [0x61, 0xE9] []
      (by decide) (by decide)⟩

/-! ### Truncated characters and transport errors inside a character -/

theorem readCont_short (k : Nat) : ∀ (bs : List Nat), bs.length < k →
    readCont k (dataStream bs) = (Sum.inl (Utf8Out.err IOErrorKind.invalidData), []) := by
  induction k with
  | zero => intro bs h; simp at h
  | succ n ih =>
    intro bs h
    match bs with
    | [] => rfl
    | b :: rest =>
      have hr : rest.length < n := by
        simp only [List.length_cons] at h
        omega
      have hih := ih rest hr
      simp only [dataStream] at hih
      simp [dataStream, readCont, hih]

theorem readCont_ioError (k : Nat) : ∀ (bs : List Nat) (s : List RRes), bs.length < k →
    readCont k (dataStream bs ++ RRes.ioError :: s) = (Sum.inl Utf8Out.panicked, s) := by
  induction k with
  | zero => intro bs s h; simp at h
  | succ n ih =>
    intro bs s h
    match bs with
    | [] => rfl
    | b :: rest =>
      have hr : rest.length < n := by
        simp only [List.length_cons] at h
        omega
      have hih := ih rest s hr
      simp only [dataStream] at hih
      simp [dataStream, readCont, hih]

theorem readCont_cases (k : Nat) : ∀ (s : List RRes), RRes.ioError ∉ s →
    (∃ tail rest', readCont k s = (Sum.inr tail, rest'))
  ∨ readCont k s = (Sum.inl (Utf8Out.err IOErrorKind.invalidData), []) := by
  induction k with
  | zero => intro s _; exact Or.inl ⟨[], s, rfl⟩
  | succ n ih =>
    intro s h
    match s with
    | [] => exact Or.inr rfl
    | RRes.ioError :: rest => exact absurd (List.mem_cons_self _ _) h
    | RRes.data b :: rest =>
      have h' : RRes.ioError ∉ rest := fun hm => h (List.mem_cons_of_mem _ hm)
      rcases ih rest h' with ⟨tail, rest', hrc⟩ | hrc
      · exact Or.inl ⟨b :: tail, rest', by simp [readCont, hrc]⟩
      · exact Or.inr (by simp [readCont, hrc])

/-! ### Outcome classification of one reader call -/

theorem read_outcomes (s : List RRes) (h : RRes.ioError ∉ s) :
    (s = [] ∧ read_utf8_char s = (Utf8Out.ok none, []))
  ∨ (s ≠ [] ∧ ((∃ v rest', read_utf8_char s = (Utf8Out.ok (some v), rest'))
      ∨ (∃ rest', read_utf8_char s = (Utf8Out.err IOErrorKind.invalidData, rest'))
      ∨ (∃ rest', read_utf8_char s = (Utf8Out.err IOErrorKind.other, rest')))) := by
  match s with
  | [] => exact Or.inl ⟨rfl, rfl⟩
  | RRes.ioError :: rest => exact absurd (List.mem_cons_self _ _) h
  | RRes.data b :: rest =>
    have h' : RRes.ioError ∉ rest := fun hm => h (List.mem_cons_of_mem _ hm)
    refine Or.inr ⟨by simp, ?_⟩
    cases hbc : bytesInChar b with
    | none => exact Or.inr (Or.inl ⟨rest, by simp [read_utf8_char, hbc]⟩)
    | some n =>
      rcases readCont_cases (n - 1) rest h' with ⟨tail, rest', hrc⟩ | hrc
      · cases hch : utf8Chars (padChar (b :: tail)) with
        | none =>
          exact Or.inr (Or.inr ⟨rest', by simp [read_utf8_char, hbc, hrc, hch]⟩)
        | some cs =>
          have hcons : padChar (b :: tail) =
              b :: (tail ++ List.replicate (4 - (b :: tail).length) 0) := by
            simp [padChar]
          rw [hcons] at hch
          obtain ⟨v, len, cs', _, _, _, _, rfl⟩ := utf8Chars_decomp _ _ _ hch
          refine Or.inl ⟨v, rest', ?_⟩
          rw [← hcons] at hch
          simp [read_utf8_char, hbc, hrc, hch]
      · exact Or.inr (Or.inl ⟨[], by simp [read_utf8_char, hbc, hrc]⟩)

theorem read_no_panic (s : List RRes) (h : RRes.ioError ∉ s) :
    (read_utf8_char s).1 ≠ Utf8Out.panicked := by
  rcases read_outcomes s h with ⟨_, hr⟩ | ⟨_, hrest⟩
  · rw [hr]; simp
  · rcases hrest with ⟨v, r, hr⟩ | ⟨r, hr⟩ | ⟨r, hr⟩ <;> rw [hr] <;> simp

/-- Claim C5: a stream that ends after a multi-byte lead byte but before
all of that character's continuation bytes were read fails with the
`InvalidData` decode error; it neither returns a partial character nor a
clean end of stream. -/
theorem c5_truncated_character_decode_error (b0 n : Nat) (bs : List Nat)
    (h1 : bytesInChar b0 = some n) (h2 : bs.length + 1 < n) :
    read_utf8_char (RRes.data b0 :: dataStream bs) =
      (Utf8Out.err IOErrorKind.invalidData, []) := by
  have hs : bs.length < n - 1 := by omega
  simp [read_utf8_char, h1, readCont_short (n - 1) bs hs]

/-- Witness for C5: the three-byte character `0xE2 ...` truncated after
one continuation byte. -/
theorem c5_witness :
    bytesInChar 0xE2 = some 3 ∧ [0x82].length + 1 < 3 ∧
    read_utf8_char (RRes.data 0xE2 :: dataStream [0x82]) =
      (Utf8Out.err IOErrorKind.invalidData, []) :=
  ⟨by decide, by decide,
    c5_truncated_character_decode_error 0xE2 3 [0x82] (by decide) (by decide)⟩

/-- Claim C10: every transport read inside `read_utf8_char` is unwrapped:
an I/O error on the first read or on a continuation read panics instead of
being returned, and when no read fails the function never panics — its
error return can only carry a decode failure. -/
theorem c10_transport_errors_are_unwrapped (s : List RRes) (b0 n : Nat) (bs : List Nat)
    (h1 : bytesInChar b0 = some n) (h2 : bs.length + 1 < n) :
    (read_utf8_char (RRes.ioError :: s)).1 = Utf8Out.panicked
  ∧ (read_utf8_char (RRes.data b0 :: (dataStream bs ++ RRes.ioError :: s))).1 =
      Utf8Out.panicked
  ∧ (∀ t, RRes.ioError ∉ t → (read_utf8_char t).1 ≠ Utf8Out.panicked) := by
  refine ⟨rfl, ?_, fun t ht => read_no_panic t ht⟩
  have hs : bs.length < n - 1 := by omega
  simp [read_utf8_char, h1, readCont_ioError (n - 1) bs s hs]

/-- Witness for C10: an I/O error as the first read, and one in the middle
of a three-byte character. -/
theorem c10_witness :
    bytesInChar 0xE2 = some 3 ∧ [0x82].length + 1 < 3 ∧
    ((read_utf8_char (RRes.ioError :: ([] : List RRes))).1 = Utf8Out.panicked
     ∧ (read_utf8_char (RRes.data 0xE2 :: (dataStream [0x82] ++ RRes.ioError :: []))).1 =
         Utf8Out.panicked
     ∧ (∀ t, RRes.ioError ∉ t → (read_utf8_char t).1 ≠ Utf8Out.panicked)) :=
  ⟨by decide, by decide,
    c10_transport_errors_are_unwrapped [] 0xE2 3 [0x82] (by decide) (by decide)⟩

/-- Claim C4 (amended): with every transport read succeeding,
`read_utf8_char` returns `Some` character, returns `None` exactly when the
stream is cleanly at end of stream before any byte of a character was
read, or fails with a decode error; an invalid lead byte and a truncated
character carry kind `InvalidData`, while a lead byte whose completed
four-byte buffer is not valid UTF-8 carries kind `Other` (lib.rs 134), so
every decode failure has one of these two kinds. -/
theorem c4_decode_failure_kinds (s : List RRes) (h : RRes.ioError ∉ s) :
    ((read_utf8_char s).1 = Utf8Out.ok none ↔ s = [])
  ∧ (∀ k, (read_utf8_char s).1 = Utf8Out.err k →
      k = IOErrorKind.invalidData ∨ k = IOErrorKind.other)
  ∧ (read_utf8_char s).1 ≠ Utf8Out.panicked := by
  refine ⟨?_, ?_, read_no_panic s h⟩
  · constructor
    · intro hok
      rcases read_outcomes s h with ⟨he, _⟩ | ⟨_, hrest⟩
      · exact he
      · exfalso
        rcases hrest with ⟨v, r, hr⟩ | ⟨r, hr⟩ | ⟨r, hr⟩ <;> rw [hr] at hok <;> simp at hok
    · intro he
      subst he
      rfl
  · intro k hk
    rcases read_outcomes s h with ⟨_, hr⟩ | ⟨_, hrest⟩
    · rw [hr] at hk
      simp at hk
    · rcases hrest with ⟨v, r, hr⟩ | ⟨r, hr⟩ | ⟨r, hr⟩
      · rw [hr] at hk
        simp at hk
      · rw [hr] at hk
        simp at hk
        exact Or.inl hk.symm
      · rw [hr] at hk
        simp at hk
        exact Or.inr hk.symm

/-- Claim C4 counterexample: the two-byte stream `0xC2 0x41` (valid
two-byte lead, invalid continuation byte) is an invalid byte sequence, yet
its decode failure carries `io::ErrorKind::Other` (from the
`String::from_utf8` error wrapping at lib.rs 134), not `InvalidData` as
the claim states. -/
theorem c4_counterexample :
    (read_utf8_char [RRes.data 0xC2, RRes.data 0x41]).1 = Utf8Out.err IOErrorKind.other
    ∧ IOErrorKind.other ≠ IOErrorKind.invalidData := by decide

/-- Witness for the amended C4 at the stream `0xC2 0x41`. -/
theorem c4_witness :
    RRes.ioError ∉ [RRes.data 0xC2, RRes.data 0x41]
    ∧ (((read_utf8_char [RRes.data 0xC2, RRes.data 0x41]).1 = Utf8Out.ok none ↔
          [RRes.data 0xC2, RRes.data 0x41] = ([] : List RRes))
       ∧ (∀ k, (read_utf8_char [RRes.data 0xC2, RRes.data 0x41]).1 = Utf8Out.err k →
           k = IOErrorKind.invalidData ∨ k = IOErrorKind.other)
       ∧ (read_utf8_char [RRes.data 0xC2, RRes.data 0x41]).1 ≠ Utf8Out.panicked) :=
  ⟨by decide, c4_decode_failure_kinds [RRes.data 0xC2, RRes.data 0x41] (by decide)⟩

/-! ### Single steps of the line-collection loop -/

theorem read_input_go_interrupt (fuel : Nat) (acc : List Nat) (s : List RRes) :
    read_input_go fuel acc (RRes.data 3 :: s) = InputResult.line [] s := by
  cases fuel <;> rfl

theorem read_input_go_enter (fuel : Nat) (acc : List Nat) (s : List RRes) :
    read_input_go fuel acc (RRes.data 13 :: s) = InputResult.line acc s := by
  cases fuel <;> rfl

theorem read_input_go_newline (fuel : Nat) (acc : List Nat) (s : List RRes) :
    read_input_go fuel acc (RRes.data 10 :: s) = InputResult.line acc s := by
  cases fuel <;> rfl

theorem read_input_go_ioError (fuel : Nat) (input : List Nat) (s : List RRes) :
    read_input_go fuel input (RRes.ioError :: s) = InputResult.panicked := by
  cases fuel <;> rfl

theorem read_input_go_eos (fuel : Nat) (input : List Nat) :
    read_input_go fuel input [] = InputResult.exitEndOfStream := by
  cases fuel <;> rfl

theorem read_input_backspace (n : Nat) (input : List Nat) (s : List RRes) :
    read_input_go (n + 1) input (RRes.data 127 :: s) =
      read_input_go n input.dropLast s := rfl

theorem read_input_push (n : Nat) (input : List Nat) (b : Nat) (s : List RRes)
    (hb : b ≤ 0x7F) (h10 : b ≠ 10) (h13 : b ≠ 13) (h3 : b ≠ 3) (h4 : b ≠ 4)
    (h127 : b ≠ 127) :
    read_input_go (n + 1) input (RRes.data b :: s) = read_input_go n (input ++ [b]) s := by
  have hread : read_utf8_char (RRes.data b :: s) = (Utf8Out.ok (some b), s) :=
    read_char_one b s hb
  rw [read_input_go.eq_def, hread]
  simp [h10, h13, h3, h4, h127]

/-- Claim C7: receiving the interrupt character 0x03 (Ctrl-C) at any point
during collection — whatever text has been accumulated — makes the
collection loop return an empty line, discarding everything collected so
far, with exactly the same result as pressing enter (carriage return) on a
blank line. -/
theorem c7_interrupt_yields_empty_line (fuel fuel2 : Nat) (acc : List Nat) (s : List RRes) :
    read_input_go fuel acc (RRes.data 3 :: s) = InputResult.line [] s
  ∧ read_input_go fuel2 [] (RRes.data 13 :: s) = InputResult.line [] s
  ∧ read_input_go fuel acc (RRes.data 3 :: s) = read_input_go fuel2 [] (RRes.data 13 :: s) := by
  refine ⟨read_input_go_interrupt fuel acc s, read_input_go_enter fuel2 [] s, ?_⟩
  rw [read_input_go_interrupt, read_input_go_enter]

/-- Claim C8: backspace (0x7F) on an empty accumulated line is a no-op
(collection continues exactly as if it had not been received), and
appending any ordinary character followed by backspace restores the prior
accumulated line. -/
theorem c8_backspace_pops_last (fuel : Nat) (acc : List Nat) (b : Nat) (s : List RRes)
    (hb : b ≤ 0x7F) (h10 : b ≠ 10) (h13 : b ≠ 13) (h3 : b ≠ 3) (h4 : b ≠ 4)
    (h127 : b ≠ 127) :
    read_input_go (fuel + 1) [] (RRes.data 127 :: s) = read_input_go fuel [] s
  ∧ read_input_go (fuel + 2) acc (RRes.data b :: RRes.data 127 :: s) =
      read_input_go fuel acc s := by
  constructor
  · rw [read_input_backspace]
    rfl
  · have h1 := read_input_push (fuel + 1) acc b (RRes.data 127 :: s) hb h10 h13 h3 h4 h127
    have h2 := read_input_backspace fuel (acc ++ [b]) s
    have h3' : (acc ++ [b]).dropLast = acc := by simp
    rw [h3'] at h2
    calc read_input_go (fuel + 2) acc (RRes.data b :: RRes.data 127 :: s)
        = read_input_go (fuel + 1) (acc ++ [b]) (RRes.data 127 :: s) := h1
      _ = read_input_go fuel acc s := h2

/-- Witness for C8 with line `"a"`, character `"b"`, and a newline ending
the stream. -/
theorem c8_witness :
    read_input_go (0 + 1) [] (RRes.data 127 :: [RRes.data 10]) =
      read_input_go 0 [] [RRes.data 10]
  ∧ read_input_go (0 + 2) [97] (RRes.data 98 :: RRes.data 127 :: [RRes.data 10]) =
      read_input_go 0 [97] [RRes.data 10] :=
  c8_backspace_pops_last 0 [97] 98 [RRes.data 10] (by decide) (by decide) (by decide)
    (by decide) (by decide) (by decide)

/-- Claim C3 (amended): any error returned by `read_input` (which can only
be a decode failure) makes the dispatcher report it and exit the process
with status 1; end of stream also exits; a raw transport I/O failure
during reading is unwrapped into a panic, aborting the process; the loop
proceeds only when a line was successfully collected.  No failure during
input reading continues the loop. -/
theorem c3_input_failures_terminate (s : List RRes) (k : IOErrorKind) :
    (read_input s = InputResult.ioFail k → dispatch_input s = DispatchOutcome.exitProcess)
  ∧ (read_input s = InputResult.exitEndOfStream →
      dispatch_input s = DispatchOutcome.exitProcess)
  ∧ (∀ l rest, read_input s = InputResult.line l rest →
      dispatch_input s = DispatchOutcome.proceedToParse l rest)
  ∧ dispatch_input (RRes.ioError :: s) = DispatchOutcome.panicked := by
  refine ⟨fun h => by simp [dispatch_input, h], fun h => by simp [dispatch_input, h],
    fun l rest h => by simp [dispatch_input, h], ?_⟩
  simp [dispatch_input, read_input, read_input_go_ioError]

/-- Claim C3 counterexample: a transport I/O failure during input reading
does not leave the prompt loop running — the read is unwrapped and the
process aborts by panic (no reported error, no next iteration), instead of
the claimed report-and-continue. -/
theorem c3_counterexample :
    dispatch_input [RRes.ioError] = DispatchOutcome.panicked := by decide

/-- Witness for the amended C3: the invalid lead byte 0x80 produces a
decode failure and the dispatcher exits the process. -/
theorem c3_witness :
    read_input [RRes.data 0x80] = InputResult.ioFail IOErrorKind.invalidData
  ∧ dispatch_input [RRes.data 0x80] = DispatchOutcome.exitProcess :=
  ⟨by decide,
    (c3_input_failures_terminate [RRes.data 0x80] IOErrorKind.invalidData).1 (by decide)⟩

/-! ### Rust `str::replace` and the prompt -/

theorem replaceCore_nil (fuel : Nat) (pat rep : List Char) :
    replaceCore fuel [] pat rep = [] := by
  cases fuel <;> rfl

theorem replaceCore_succ (n : Nat) (c : Char) (rest pat rep : List Char) :
    replaceCore (n + 1) (c :: rest) pat rep =
      if pat.isPrefixOf (c :: rest) then
        rep ++ replaceCore n ((c :: rest).drop pat.length) pat rep
      else c :: replaceCore n rest pat rep := rfl

theorem replaceCore_irrel (pat rep : List Char) (hpat : pat ≠ []) (f1 : Nat) :
    ∀ (f2 : Nat) (s : List Char), s.length ≤ f1 → s.length ≤ f2 →
    replaceCore f1 s pat rep = replaceCore f2 s pat rep := by
  have hp1 : 1 ≤ pat.length := List.length_pos.mpr hpat
  induction f1 with
  | zero =>
    intro f2 s h1 h2
    match s with
    | [] => rw [replaceCore_nil, replaceCore_nil]
    | c :: rest => simp at h1
  | succ n ih =>
    intro f2 s h1 h2
    match s with
    | [] => rw [replaceCore_nil, replaceCore_nil]
    | c :: rest =>
      match f2, h2 with
      | 0, h2 => exact absurd h2 (by simp)
      | m + 1, h2 =>
        rw [replaceCore_succ, replaceCore_succ]
        by_cases hpre : pat.isPrefixOf (c :: rest) = true
        · rw [if_pos hpre, if_pos hpre]
          have hd1 : ((c :: rest).drop pat.length).length ≤ n := by
            simp only [List.length_drop, List.length_cons]
            simp only [List.length_cons] at h1
            omega
          have hd2 : ((c :: rest).drop pat.length).length ≤ m := by
            simp only [List.length_drop, List.length_cons]
            simp only [List.length_cons] at h2
            omega
          rw [ih m _ hd1 hd2]
        · rw [if_neg hpre, if_neg hpre]
          have hd1 : rest.length ≤ n := by
            simp only [List.length_cons] at h1
            omega
          have hd2 : rest.length ≤ m := by
            simp only [List.length_cons] at h2
            omega
          rw [ih m rest hd1 hd2]

theorem isPrefixOf_exists (p : List Char) : ∀ (l : List Char), p.isPrefixOf l = true →
    ∃ t, l = p ++ t := by
  induction p with
  | nil => exact fun l _ => ⟨l, rfl⟩
  | cons a p ih =>
    intro l h
    match l with
    | [] => simp [List.isPrefixOf] at h
    | b :: l' =>
      simp only [List.isPrefixOf, Bool.and_eq_true, beq_iff_eq] at h
      obtain ⟨rfl, h2⟩ := h
      obtain ⟨t, rfl⟩ := ih l' h2
      exact ⟨t, rfl⟩

theorem isPrefixOf_self_append (p t : List Char) : p.isPrefixOf (p ++ t) = true := by
  induction p with
  | nil => simp [List.isPrefixOf]
  | cons a p ih => simp [List.isPrefixOf, ih]

theorem rustReplace_head_match (home cwd : List Char) (h1 : home ≠ [])
    (h2 : home.isPrefixOf cwd = true) :
    rustReplace cwd home ['~'] = '~' :: rustReplace (cwd.drop home.length) home ['~'] := by
  obtain ⟨t, rfl⟩ := isPrefixOf_exists home cwd h2
  rw [List.drop_left]
  match home, h1 with
  | a :: home', h1 =>
    have e1 : (a :: home') ++ t = a :: (home' ++ t) := rfl
    rw [rustReplace, if_neg h1, rustReplace, if_neg h1]
    have e2 : ((a :: home') ++ t).length = (home' ++ t).length + 1 := by simp
    rw [e2, e1, replaceCore_succ]
    have hpre : (a :: home').isPrefixOf (a :: (home' ++ t)) = true := by
      rw [← e1]
      exact isPrefixOf_self_append (a :: home') t
    rw [if_pos hpre]
    have e3 : (a :: (home' ++ t)).drop (a :: home').length = t := by
      rw [← e1, List.drop_left]
    rw [e3]
    have e4 : t.length ≤ (home' ++ t).length := by simp
    rw [replaceCore_irrel (a :: home') ['~'] (by simp) ((home' ++ t).length) t.length t
      e4 le_rfl]
    rfl

/-- Claim C2 (amended): prompt construction substitutes `~` for every
occurrence of the home string as a plain substring of the current
directory string (Rust `str::replace`), with no path-component boundary
check: whenever the non-empty home string is a string prefix of the
current directory — component boundary or not — the prompt starts
`user@host:~` and continues with the remainder, itself further
substituted. -/
theorem c2_home_replaced_as_substring (user host home cwd : List Char)
    (h1 : home ≠ []) (h2 : home.isPrefixOf cwd = true) :
    get_prompt user host home cwd =
      user ++ '@' :: (host ++ ':' ::
        (('~' :: rustReplace (cwd.drop home.length) home ['~']) ++ '$' :: ' ' :: [])) := by
  rw [get_prompt, rustReplace_head_match home cwd h1 h2]

/-- Claim C2 counterexample: with home `/home/alice` and current directory
`/home/alice2/project` — where the home string is a prefix but not at a
path-component boundary — the prompt is `alice@pi:~2/project$ `, not the
unmodified `alice@pi:/home/alice2/project$ ` the claim requires. -/
theorem c2_counterexample :
    get_prompt "alice".toList "pi".toList "/home/alice".toList "/home/alice2/project".toList
      = "alice@pi:~2/project$ ".toList
    ∧ "alice@pi:~2/project$ ".toList ≠ "alice@pi:/home/alice2/project$ ".toList := by
  constructor
  · decide
  · decide

/-- Witness for the amended C2: home `/ho` as a prefix of `/ho/x`. -/
theorem c2_witness :
    "/ho".toList ≠ ([] : List Char)
  ∧ ("/ho".toList).isPrefixOf "/ho/x".toList = true
  ∧ get_prompt "u".toList "h".toList "/ho".toList "/ho/x".toList =
      "u".toList ++ '@' :: ("h".toList ++ ':' ::
        (('~' :: rustReplace ("/ho/x".toList.drop "/ho".toList.length) "/ho".toList ['~'])
          ++ '$' :: ' ' :: [])) :=
  ⟨by decide, by decide,
    c2_home_replaced_as_substring "u".toList "h".toList "/ho".toList "/ho/x".toList
      (by decide) (by decide)⟩

/-! ### Splitting and binary resolution -/

theorem rustSplit_ne_nil (sep : Nat) (l : List Nat) :
    ∃ t ts, rustSplit sep l = t :: ts := by
  induction l with
  | nil => exact ⟨[], [], rfl⟩
  | cons b rest ih =>
    obtain ⟨t, ts, h⟩ := ih
    by_cases hb : b = sep
    · exact ⟨[], t :: ts, by simp [rustSplit, h, hb]⟩
    · exact ⟨b :: t, ts, by simp [rustSplit, h, hb]⟩

theorem rustSplit_no_sep (sep : Nat) : ∀ l : List Nat, sep ∉ l → rustSplit sep l = [l] := by
  intro l
  induction l with
  | nil => intro _; rfl
  | cons b rest ih =>
    intro h
    have hb : b ≠ sep := fun e => h (by rw [← e]; exact List.mem_cons_self _ _)
    have h' : sep ∉ rest := fun hm => h (List.mem_cons_of_mem _ hm)
    simp [rustSplit, ih h', hb]

/-- Claim C6 (amended): resolution branches on the actual Rust test
`path.parent() == Some("")`, not on "contains a slash".  A token whose
parent is non-empty (absolute, or two or more components) is an explicit
path: returned when it is a regular file, otherwise an `InvalidInput`
error naming it, with no search.  A token whose parent is the empty path
(relative with one component — every slash-free token, but also
trailing-slash tokens such as `ls/`) is searched: each directory of the
colon-separated PATH in listed order, unlistable directories silently
skipped, first entry that is a regular file with exactly the token as name
wins, and a completed search without a match is a `NotFound` error naming
the token. -/
theorem c6_resolution (fs : FileSys) (pv tok d : List Nat) (ds : List (List Nat))
    (es : List DirEntry) (e : DirEntry) (htok : tok ≠ []) :
    (rustParentIsEmptyPath tok = false → fs.isFile tok = true →
        find_binary fs (some pv) tok = FindResult.okSome tok)
  ∧ (rustParentIsEmptyPath tok = false → fs.isFile tok = false →
        find_binary fs (some pv) tok = FindResult.errK IOErrorKind.invalidInput tok)
  ∧ (fs.readDir d = none → searchDirs fs tok (d :: ds) = searchDirs fs tok ds)
  ∧ (fs.readDir d = some es → es.find? (entryMatches tok) = some e →
        searchDirs fs tok (d :: ds) = some e.entryPath)
  ∧ (fs.readDir d = some es → es.find? (entryMatches tok) = none →
        searchDirs fs tok (d :: ds) = searchDirs fs tok ds)
  ∧ (rustParentIsEmptyPath tok = true → ∀ p, searchDirs fs tok (rustSplit 58 pv) = some p →
        find_binary fs (some pv) tok = FindResult.okSome p)
  ∧ (rustParentIsEmptyPath tok = true → searchDirs fs tok (rustSplit 58 pv) = none →
        find_binary fs (some pv) tok = FindResult.okNone)
  ∧ (rustTrim tok = tok → 32 ∉ tok → tok.head? ≠ some 4 →
        find_binary fs (some pv) tok = FindResult.okNone →
        parse_input fs (some pv) tok = ParseResult.err IOErrorKind.notFound tok) := by
  refine ⟨fun h hf => by simp [find_binary, h, hf],
    fun h hf => by simp [find_binary, h, hf],
    fun h => by simp [searchDirs, h],
    fun h hf => by simp [searchDirs, h, hf],
    fun h hf => by simp [searchDirs, h, hf],
    fun h p hs => by simp [find_binary, h, hs],
    fun h hs => by simp [find_binary, h, hs],
    fun htr h32 h4 hfb => ?_⟩
  simp [parse_input, htr, rustSplit_no_sep 32 tok h32, htok, h4, hfb]

/-- Claim C6 counterexample: the token `ls/` contains a slash but its Rust
path parent is `Some("")`, so — contrary to the claim — it is not treated
as an explicit path: with a filesystem where `ls/` is not a file and PATH
`/b` lists no matching entry, resolution consults the search path and
fails with `NotFound` naming the token, not with `InvalidInput`. -/
theorem c6_counterexample :
    (47 ∈ ([108, 115, 47] : List Nat))
    ∧ rustParentIsEmptyPath [108, 115, 47] = true
    ∧ find_binary fsEmpty (some [47, 98]) [108, 115, 47] = FindResult.okNone
    ∧ parse_input fsEmpty (some [47, 98]) [108, 115, 47] =
        ParseResult.err IOErrorKind.notFound [108, 115, 47]
    ∧ ParseResult.err IOErrorKind.notFound [108, 115, 47] ≠
        ParseResult.err IOErrorKind.invalidInput [108, 115, 47] := by decide

/-- Witness for the amended C6: `ls` found as `/b/ls` after skipping the
unlistable `/a`; the unknown `x` reported `NotFound`; the explicit path
`/bin/sh` returned directly. -/
theorem c6_witness :
    find_binary fsTwoDirs (some [47, 97, 58, 47, 98]) [108, 115] =
      FindResult.okSome [47, 98, 47, 108, 115]
  ∧ parse_input fsTwoDirs (some [47, 97, 58, 47, 98]) [120] =
      ParseResult.err IOErrorKind.notFound [120]
  ∧ find_binary fsBinSh (some [47, 98]) [47, 98, 105, 110, 47, 115, 104] =
      FindResult.okSome [47, 98, 105, 110, 47, 115, 104] := by
  refine ⟨?_, ?_, ?_⟩
  · exact (c6_resolution fsTwoDirs [47, 97, 58, 47, 98] [108, 115] [] [] []
      ⟨[], false, []⟩ (by decide)).2.2.2.2.2.1 (by decide) [47, 98, 47, 108, 115] (by decide)
  · exact (c6_resolution fsTwoDirs [47, 97, 58, 47, 98] [120] [] [] []
      ⟨[], false, []⟩ (by decide)).2.2.2.2.2.2.2 (by decide) (by decide) (by decide) (by decide)
  · exact (c6_resolution fsBinSh [47, 98] [47, 98, 105, 110, 47, 115, 104] [] [] []
      ⟨[], false, []⟩ (by decide)).1 (by decide) (by decide)

/-! ### Whitespace trimming -/

theorem dropWhile_append_all (p : Nat → Bool) : ∀ (l1 l2 : List Nat),
    (∀ b ∈ l1, p b = true) → (l1 ++ l2).dropWhile p = l2.dropWhile p := by
  intro l1
  induction l1 with
  | nil => intro l2 _; rfl
  | cons a l1 ih =>
    intro l2 h
    have ha : p a = true := h a (List.mem_cons_self _ _)
    have h' : ∀ b ∈ l1, p b = true := fun b hb => h b (List.mem_cons_of_mem _ hb)
    simp [List.dropWhile_cons, ha, ih l2 h']

theorem dropWhile_all_nil (p : Nat → Bool) : ∀ l : List Nat,
    (∀ b ∈ l, p b = true) → l.dropWhile p = [] := by
  intro l
  induction l with
  | nil => intro _; rfl
  | cons a l ih =>
    intro h
    have ha : p a = true := h a (List.mem_cons_self _ _)
    simp [List.dropWhile_cons, ha, ih (fun b hb => h b (List.mem_cons_of_mem _ hb))]

theorem dropWhile_nil_all (p : Nat → Bool) : ∀ l : List Nat,
    l.dropWhile p = [] → ∀ b ∈ l, p b = true := by
  intro l
  induction l with
  | nil => intro _ b hb; simp at hb
  | cons a l ih =>
    intro h b hb
    by_cases ha : p a = true
    · rcases List.mem_cons.mp hb with rfl | hb'
      · exact ha
      · exact ih (by simpa [List.dropWhile_cons, ha] using h) b hb'
    · have ha' : p a = false := by simpa using ha
      simp [List.dropWhile_cons, ha'] at h

theorem dropWhile_append_ne (p : Nat → Bool) : ∀ (l1 l2 : List Nat),
    l1.dropWhile p ≠ [] → (l1 ++ l2).dropWhile p = l1.dropWhile p ++ l2 := by
  intro l1
  induction l1 with
  | nil => intro l2 h; exact absurd rfl h
  | cons a l1 ih =>
    intro l2 h
    by_cases ha : p a = true
    · have h' : l1.dropWhile p ≠ [] := by
        simpa [List.dropWhile_cons, ha] using h
      simp [List.dropWhile_cons, ha, ih l2 h']
    · have ha' : p a = false := by simpa using ha
      simp [List.dropWhile_cons, ha']

theorem exists_dropWhile_decomp (p : Nat → Bool) : ∀ l : List Nat,
    ∃ l0, l = l0 ++ l.dropWhile p := by
  intro l
  induction l with
  | nil => exact ⟨[], rfl⟩
  | cons a l ih =>
    by_cases ha : p a = true
    · obtain ⟨l0, h⟩ := ih
      refine ⟨a :: l0, ?_⟩
      have hd : List.dropWhile p (a :: l) = List.dropWhile p l := by
        simp [List.dropWhile_cons, ha]
      rw [hd, List.cons_append, ← h]
    · have ha' : p a = false := by simpa using ha
      refine ⟨[], ?_⟩
      simp [List.dropWhile_cons, ha']

theorem head_dropWhile_false (p : Nat → Bool) : ∀ (l : List Nat) (a : Nat),
    (l.dropWhile p).head? = some a → p a = false := by
  intro l
  induction l with
  | nil => intro a h; simp at h
  | cons b l ih =>
    intro a h
    by_cases hb : p b = true
    · exact ih a (by simpa [List.dropWhile_cons, hb] using h)
    · have hb' : p b = false := by simpa using hb
      simp [List.dropWhile_cons, hb'] at h
      exact h ▸ hb'

theorem head_append_left (l l' : List Nat) (h : l ≠ []) : (l ++ l').head? = l.head? := by
  cases l
  · exact absurd rfl h
  · rfl

theorem head_reverse_dropWhile (p : Nat → Bool) (x : List Nat)
    (h : (x.reverse.dropWhile p).reverse ≠ []) :
    ((x.reverse.dropWhile p).reverse).head? = x.head? := by
  obtain ⟨l0, hdecomp⟩ := exists_dropWhile_decomp p x.reverse
  have hx : x = (x.reverse.dropWhile p).reverse ++ l0.reverse := by
    calc x = x.reverse.reverse := (List.reverse_reverse x).symm
    _ = (l0 ++ x.reverse.dropWhile p).reverse := by rw [← hdecomp]
    _ = (x.reverse.dropWhile p).reverse ++ l0.reverse := by rw [List.reverse_append]
  conv_rhs => rw [hx]
  rw [head_append_left _ _ h]

theorem trimStart_ws_append (pre x : List Nat)
    (h : ∀ b ∈ pre, isRustWhitespace b = true) :
    trimStart (pre ++ x) = trimStart x :=
  dropWhile_append_all _ pre x h

theorem trimEnd_ws_append (x post : List Nat)
    (h : ∀ b ∈ post, isRustWhitespace b = true) :
    trimEnd (x ++ post) = trimEnd x := by
  rw [trimEnd, trimEnd, List.reverse_append]
  rw [dropWhile_append_all _ post.reverse x.reverse
    (fun b hb => h b (List.mem_reverse.mp hb))]

theorem rustTrim_ws_ends (pre mid post : List Nat)
    (hpre : ∀ b ∈ pre, isRustWhitespace b = true)
    (hpost : ∀ b ∈ post, isRustWhitespace b = true) :
    rustTrim (pre ++ mid ++ post) = rustTrim mid := by
  rw [rustTrim, rustTrim]
  have h1 : pre ++ mid ++ post = pre ++ (mid ++ post) := by simp
  rw [h1, trimStart_ws_append pre (mid ++ post) hpre]
  by_cases hm : trimStart mid = []
  · have hmw : ∀ b ∈ mid, isRustWhitespace b = true := dropWhile_nil_all _ mid hm
    rw [show trimStart (mid ++ post) = trimStart post from
      trimStart_ws_append mid post hmw]
    rw [show trimStart post = [] from dropWhile_all_nil _ post hpost, hm]
  · rw [show trimStart (mid ++ post) = trimStart mid ++ post from
      dropWhile_append_ne _ mid post hm]
    exact trimEnd_ws_append (trimStart mid) post hpost

theorem rustTrim_head_not_ws (l : List Nat) (h : rustTrim l ≠ []) :
    ∃ a, (rustTrim l).head? = some a ∧ isRustWhitespace a = false := by
  have hne : ((trimStart l).reverse.dropWhile isRustWhitespace).reverse ≠ [] := by
    intro e
    exact h (by rw [rustTrim, trimEnd, e])
  have hh := head_reverse_dropWhile isRustWhitespace (trimStart l) hne
  have hne3 : trimStart l ≠ [] := by
    intro e
    rw [e] at hne
    exact hne rfl
  obtain ⟨a, ha⟩ : ∃ a, (trimStart l).head? = some a := by
    cases htl : trimStart l with
    | nil => exact absurd htl hne3
    | cons x xs => exact ⟨x, rfl⟩
  refine ⟨a, ?_, ?_⟩
  · rw [rustTrim, trimEnd, hh]
    exact ha
  · rw [trimStart] at ha
    exact head_dropWhile_false _ l a ha

theorem rustTrim_getLast_not_ws (l : List Nat) (h : rustTrim l ≠ []) :
    ∃ a, (rustTrim l).getLast? = some a ∧ isRustWhitespace a = false := by
  have hd : (trimStart l).reverse.dropWhile isRustWhitespace ≠ [] := by
    intro e
    exact h (by rw [rustTrim, trimEnd, e]; rfl)
  obtain ⟨a, ha⟩ : ∃ a, ((trimStart l).reverse.dropWhile isRustWhitespace).head? = some a := by
    cases htl : (trimStart l).reverse.dropWhile isRustWhitespace with
    | nil => exact absurd htl hd
    | cons x xs => exact ⟨x, rfl⟩
  refine ⟨a, ?_, head_dropWhile_false _ _ a ha⟩
  rw [rustTrim, trimEnd, List.getLast?_reverse]
  exact ha

/-! ### Empty tokens only from interior double separators -/

theorem rustSplit_head_ne_empty (sep b : Nat) (rest : List Nat) (hb : b ≠ sep) :
    (rustSplit sep (b :: rest)).head? ≠ some [] := by
  obtain ⟨t, ts, hsp⟩ := rustSplit_ne_nil sep rest
  simp [rustSplit, hsp, hb]

theorem rustSplit_cons (sep b : Nat) (rest : List Nat) :
    rustSplit sep (b :: rest) =
      match rustSplit sep rest with
      | [] => [[]]
      | t :: ts => if b = sep then [] :: t :: ts else (b :: t) :: ts := rfl

theorem rustSplit_no_empty (sep : Nat) : ∀ (n : Nat) (l : List Nat), l.length ≤ n →
    l ≠ [] → l.head? ≠ some sep → l.getLast? ≠ some sep →
    (¬ ∃ u w, l = u ++ sep :: sep :: w) → [] ∉ rustSplit sep l := by
  intro n
  induction n with
  | zero =>
    intro l hl hne _ _ _
    cases l with
    | nil => exact absurd rfl hne
    | cons b rest => simp at hl
  | succ n ih =>
    intro l hlen hne hh hlast hdbl
    match l, hne with
    | b :: rest, _ =>
      have hb : b ≠ sep := by
        intro e
        exact hh (by simp [e])
      cases rest with
      | nil =>
        intro hmem
        simp [rustSplit, hb] at hmem
      | cons c rest' =>
        by_cases hc : c = sep
        · subst hc
          cases rest' with
          | nil =>
            apply absurd ?_ hlast
            rw [List.getLast?_cons_cons]
            rfl
          | cons dd rest'' =>
            have hd : dd ≠ c := by
              intro e
              exact hdbl ⟨[b], rest'', by simp [e]⟩
            obtain ⟨t, ts, hsp⟩ := rustSplit_ne_nil c (dd :: rest'')
            have h1 : rustSplit c (c :: dd :: rest'') = [] :: t :: ts := by
              rw [rustSplit_cons, hsp]
              simp
            have h2 : rustSplit c (b :: c :: dd :: rest'') = [b] :: t :: ts := by
              rw [rustSplit_cons, h1]
              simp [hb]
            rw [h2]
            intro hmem
            have hmem' : ([] : List Nat) ∈ rustSplit c (dd :: rest'') := by
              rw [hsp]
              rcases List.mem_cons.mp hmem with h | h
              · exact absurd h.symm (by simp)
              · exact h
            refine absurd hmem' (ih (dd :: rest'') ?_ (by simp) ?_ ?_ ?_)
            · simp only [List.length_cons] at hlen ⊢
              omega
            · simp [hd]
            · intro hgl
              apply hlast
              rw [List.getLast?_cons_cons, List.getLast?_cons_cons]
              exact hgl
            · rintro ⟨u, w, he⟩
              exact hdbl ⟨b :: c :: u, w, by simp [he]⟩
        · obtain ⟨t, ts, hsp⟩ := rustSplit_ne_nil sep (c :: rest')
          have h2 : rustSplit sep (b :: c :: rest') = (b :: t) :: ts := by
            rw [rustSplit_cons, hsp]
            simp [hb]
          rw [h2]
          intro hmem
          have hmem' : ([] : List Nat) ∈ rustSplit sep (c :: rest') := by
            rw [hsp]
            rcases List.mem_cons.mp hmem with h | h
            · exact absurd h.symm (by simp)
            · exact List.mem_cons_of_mem _ h
          refine absurd hmem' (ih (c :: rest') ?_ (by simp) ?_ ?_ ?_)
          · simp only [List.length_cons] at hlen ⊢
            omega
          · simp [hc]
          · intro hgl
            apply hlast
            rw [List.getLast?_cons_cons]
            exact hgl
          · rintro ⟨u, w, he⟩
            exact hdbl ⟨b :: u, w, by simp [he]⟩

/-- Claim C9: `parse_input` strips all leading and trailing whitespace —
the full Rust whitespace class, not only spaces — before splitting on
single spaces, so a line with whitespace around it parses exactly like its
trimmed form; after trimming, a non-empty line never starts with a space,
so leading whitespace never produces an empty first token; and an empty
token can only come from two consecutive interior spaces. -/
theorem c9_trim_and_token_shape (pre post mid : List Nat)
    (hpre : ∀ b ∈ pre, isRustWhitespace b = true)
    (hpost : ∀ b ∈ post, isRustWhitespace b = true) :
    rustTrim (pre ++ mid ++ post) = rustTrim mid
  ∧ (∀ (fs : FileSys) (pathVar : Option (List Nat)),
      parse_input fs pathVar (pre ++ mid ++ post) = parse_input fs pathVar mid)
  ∧ (rustTrim mid ≠ [] → (rustSplit 32 (rustTrim mid)).head? ≠ some [])
  ∧ (rustTrim mid ≠ [] → (¬ ∃ u w, rustTrim mid = u ++ 32 :: 32 :: w) →
      [] ∉ rustSplit 32 (rustTrim mid)) := by
  have htr : rustTrim (pre ++ mid ++ post) = rustTrim mid :=
    rustTrim_ws_ends pre mid post hpre hpost
  refine ⟨htr, fun fs pathVar => by rw [parse_input, htr, parse_input], ?_, ?_⟩
  · intro hne
    obtain ⟨a, ha, haw⟩ := rustTrim_head_not_ws mid hne
    have ha32 : a ≠ 32 := by
      intro e
      rw [e] at haw
      exact absurd haw (by decide)
    cases htl : rustTrim mid with
    | nil => exact absurd htl hne
    | cons x xs =>
      rw [htl] at ha
      have hx : x = a := by
        injection ha
      rw [hx]
      exact rustSplit_head_ne_empty 32 a xs ha32
  · intro hne hdbl
    obtain ⟨a, ha, haw⟩ := rustTrim_head_not_ws mid hne
    obtain ⟨z, hz, hzw⟩ := rustTrim_getLast_not_ws mid hne
    refine rustSplit_no_empty 32 (rustTrim mid).length (rustTrim mid) le_rfl hne ?_ ?_ hdbl
    · rw [ha]
      intro e
      have : a = 32 := by injection e
      rw [this] at haw
      exact absurd haw (by decide)
    · rw [hz]
      intro e
      have : z = 32 := by injection e
      rw [this] at hzw
      exact absurd hzw (by decide)

/-- Witness for C9: the line `" \t l a \r"`. -/
theorem c9_witness :
    (∀ b ∈ [32, 9], isRustWhitespace b = true)
  ∧ (∀ b ∈ [32, 13], isRustWhitespace b = true)
  ∧ (rustTrim ([32, 9] ++ [108, 32, 97] ++ [32, 13]) = rustTrim [108, 32, 97]
     ∧ (∀ (fs : FileSys) (pathVar : Option (List Nat)),
         parse_input fs pathVar ([32, 9] ++ [108, 32, 97] ++ [32, 13]) =
           parse_input fs pathVar [108, 32, 97])
     ∧ (rustTrim [108, 32, 97] ≠ [] →
         (rustSplit 32 (rustTrim [108, 32, 97])).head? ≠ some [])
     ∧ (rustTrim [108, 32, 97] ≠ [] →
         (¬ ∃ u w, rustTrim [108, 32, 97] = u ++ 32 :: 32 :: w) →
         [] ∉ rustSplit 32 (rustTrim [108, 32, 97]))) :=
  ⟨by decide, by decide,
    c9_trim_and_token_shape [32, 9] [32, 13] [108, 32, 97] (by decide) (by decide)⟩
